import Mathlib

/-
  Verification development for the distributed block-cyclic dense matrix
  layer of STRUMPACK (src/src/dense/DistributedMatrix.hpp).

  The C++ is shallowly embedded: the pure index arithmetic becomes Nat
  functions, the matrix objects become records, the point-to-point
  exchange of extract_rows/extract_cols becomes explicit message lists
  and folds over the iteration order of the source loops, and the
  external kernels (ScaLAPACK, BLACS, MPI) are modelled by their
  documented contracts (reduction = maximum over contributed values,
  triangular solve = back substitution, messages delivered intact).
  All machine integers in the modelled region are nonnegative in every
  reachable call, so they are embedded as Nat.
-/

namespace Strumpack

/-! ## Block-cyclic index mappings
    Source: DistributedMatrix.hpp lines 45-54 (indxl2g, indxg2l, indxg2p).
    Arguments are 1-based, exactly as in the source. -/

def indxl2g (INDXLOC NB IPROC ISRCPROC NPROCS : ℕ) : ℕ :=
  NPROCS * NB * ((INDXLOC - 1) / NB) + (INDXLOC - 1) % NB +
    ((NPROCS + IPROC - ISRCPROC) % NPROCS) * NB + 1

def indxg2l (INDXGLOB NB _IPROC _ISRCPROC NPROCS : ℕ) : ℕ :=
  NB * ((INDXGLOB - 1) / (NB * NPROCS)) + (INDXGLOB - 1) % NB + 1

def indxg2p (INDXGLOB NB _IPROC ISRCPROC NPROCS : ℕ) : ℕ :=
  (ISRCPROC + (INDXGLOB - 1) / NB) % NPROCS

/-! 0-based wrappers, as used by the class methods rowl2g, rowg2l, rowg2p
    (and their column analogues) of a base DistributedMatrix, for which
    I() = J() = 1 and the source process is 0. -/

def l2gF (B P p l : ℕ) : ℕ := indxl2g (l + 1) B p 0 P - 1

def g2lF (B P g : ℕ) : ℕ := indxg2l (g + 1) B 0 0 P - 1

def g2pF (B P g : ℕ) : ℕ := indxg2p (g + 1) B 0 0 P

lemma l2gF_eq (B P p l : ℕ) (hp : p < P) :
    l2gF B P p l = P * B * (l / B) + l % B + p * B := by
  have h1 : (P + p - 0) % P = p := by
    simp [Nat.add_mod_left, Nat.mod_eq_of_lt hp]
  simp [l2gF, indxl2g, h1]
  left
  exact Nat.mod_eq_of_lt hp

lemma g2lF_eq (B P g : ℕ) : g2lF B P g = B * (g / (B * P)) + g % B := by
  simp [g2lF, indxg2l]

lemma g2pF_eq (B P g : ℕ) : g2pF B P g = g / B % P := by
  simp [g2pF, indxg2p]

lemma g2pF_lt (B P g : ℕ) (hP : 0 < P) : g2pF B P g < P := by
  rw [g2pF_eq]; exact Nat.mod_lt _ hP

/-- Round trip (0-based): mapping a local index to its global index and
back gives the local index again. -/
lemma g2lF_l2gF (B P p l : ℕ) (hB : 0 < B) (hP : 0 < P) (hp : p < P) :
    g2lF B P (l2gF B P p l) = l := by
  rw [l2gF_eq B P p l hp, g2lF_eq]
  have hs : l % B < B := Nat.mod_lt _ hB
  have hrem : p * B + l % B < B * P := by
    have h1 : p * B + l % B < (p + 1) * B := by
      rw [Nat.succ_mul]; omega
    have h2 : (p + 1) * B ≤ P * B := Nat.mul_le_mul_right _ (by omega)
    have h3 : P * B = B * P := Nat.mul_comm _ _
    omega
  have hg : P * B * (l / B) + l % B + p * B
      = B * P * (l / B) + (p * B + l % B) := by ring
  rw [hg]
  have hdiv : (B * P * (l / B) + (p * B + l % B)) / (B * P) = l / B := by
    rw [Nat.mul_add_div (by positivity)]
    rw [Nat.div_eq_of_lt hrem]
    omega
  have hmod : (B * P * (l / B) + (p * B + l % B)) % B = l % B := by
    have h6 : B * P * (l / B) + (p * B + l % B) = B * (P * (l / B) + p) + l % B := by
      ring
    rw [h6, Nat.mul_add_mod]
    exact Nat.mod_eq_of_lt hs
  rw [hdiv, hmod, Nat.div_add_mod]

/-- The global index produced by the local-to-global map is owned by the
process that produced it. -/
lemma g2pF_l2gF (B P p l : ℕ) (hB : 0 < B) (hP : 0 < P) (hp : p < P) :
    g2pF B P (l2gF B P p l) = p := by
  rw [l2gF_eq B P p l hp, g2pF_eq]
  have hs : l % B < B := Nat.mod_lt _ hB
  have hg : P * B * (l / B) + l % B + p * B = B * (P * (l / B) + p) + l % B := by
    ring
  rw [hg, Nat.mul_add_div hB, Nat.div_eq_of_lt hs, Nat.add_zero,
    Nat.mul_add_mod, Nat.mod_eq_of_lt hp]

/-- On globally valid indices owned by process p, local-to-global inverts
global-to-local. -/
lemma l2gF_g2lF (B P p g : ℕ) (hB : 0 < B) (hP : 0 < P)
    (hg : g2pF B P g = p) : l2gF B P p (g2lF B P g) = g := by
  rw [g2pF_eq] at hg
  have hp : p < P := hg ▸ Nat.mod_lt _ hP
  rw [g2lF_eq, l2gF_eq B P p _ hp]
  have hs : g % B < B := Nat.mod_lt _ hB
  have h1 : g / B / P = g / (B * P) := Nat.div_div_eq_div_mul _ _ _
  have h2 : g / B = P * (g / (B * P)) + p := by
    have := Nat.div_add_mod (g / B) P
    rw [h1, hg] at this
    omega
  have h3 : (B * (g / (B * P)) + g % B) / B = g / (B * P) := by
    rw [Nat.mul_add_div hB, Nat.div_eq_of_lt hs, Nat.add_zero]
  have h4 : (B * (g / (B * P)) + g % B) % B = g % B := by
    rw [Nat.mul_add_mod]
    exact Nat.mod_eq_of_lt hs
  rw [h3, h4]
  have h5 := Nat.div_add_mod g B
  calc P * B * (g / (B * P)) + g % B + p * B
      = B * (P * (g / (B * P)) + p) + g % B := by ring
    _ = B * (g / B) + g % B := by rw [h2]
    _ = g := h5

/-- Two global indices owned (in the same mapping) by the same process
and sharing a local slot are equal. -/
lemma g2lF_inj (B P g g' : ℕ) (hB : 0 < B) (hP : 0 < P)
    (hp : g2pF B P g = g2pF B P g') (hl : g2lF B P g = g2lF B P g') :
    g = g' := by
  have h1 := l2gF_g2lF B P (g2pF B P g) g hB hP rfl
  have h2 := l2gF_g2lF B P (g2pF B P g) g' hB hP hp.symm
  rw [← h1, ← h2, hl]

/-- C1: for every block size B ≥ 1, grid extent N ≥ 1, owner coordinate
p < N and (1-based) local index l ≥ 1 owned by p, the source index
mappings with source process 0 satisfy the round trips
indxg2l (indxl2g l) = l and indxg2p (indxl2g l) = p. -/
theorem C1_index_roundtrip (B N p l : ℕ) (hB : 1 ≤ B) (hN : 1 ≤ N)
    (hp : p < N) (hl : 1 ≤ l) :
    indxg2l (indxl2g l B p 0 N) B p 0 N = l ∧
    indxg2p (indxl2g l B p 0 N) B p 0 N = p := by
  have hl2g : indxl2g l B p 0 N = l2gF B N p (l - 1) + 1 := by
    unfold indxl2g l2gF indxl2g
    have h1 : l - 1 + 1 - 1 = l - 1 := by omega
    rw [h1]
    have h2 : 1 ≤ N * B * ((l - 1) / B) + (l - 1) % B +
        (N + p - 0) % N * B + 1 := by omega
    omega
  constructor
  · have := g2lF_l2gF B N p (l - 1) hB hN hp
    unfold g2lF at this
    rw [hl2g]
    have h3 : l2gF B N p (l - 1) + 1 - 1 = l2gF B N p (l - 1) := by omega
    unfold indxg2l at this ⊢
    rw [h3] at this ⊢
    have h4 : 1 ≤ B * (l2gF B N p (l - 1) / (B * N)) +
        l2gF B N p (l - 1) % B + 1 := by omega
    omega
  · have := g2pF_l2gF B N p (l - 1) hB hN hp
    unfold g2pF at this
    rw [hl2g]
    unfold indxg2p at this ⊢
    have h3 : l2gF B N p (l - 1) + 1 - 1 = l2gF B N p (l - 1) := by omega
    rw [h3] at this ⊢
    exact this

/-- Witness for C1 at B = 2, N = 3, p = 1, l = 5. -/
theorem C1_index_roundtrip_witness :
    indxg2l (indxl2g 5 2 1 0 3) 2 1 0 3 = 5 ∧
    indxg2p (indxl2g 5 2 1 0 3) 2 1 0 3 = 1 :=
  C1_index_roundtrip 2 3 1 5 (by decide) (by decide) (by decide) (by decide)

/-! ## Data model
    BLACSGrid is consumed as an opaque coordinate service (active flag,
    coordinates, extents, context id); a DistributedMatrix is a record of
    grid reference, local extents, optional buffer and descriptor.
    Scalars are modelled as rationals. -/

structure GridInfo where
  active : Bool
  prow : ℕ
  pcol : ℕ
  nprows : ℕ
  npcols : ℕ
  ctxt : ℤ
deriving DecidableEq

instance : Inhabited GridInfo := ⟨⟨false, 0, 0, 1, 1, -1⟩⟩

/-- The 9-integer ScaLAPACK descriptor, with named fields for the fixed
layout: dtype, ctxt, m, n, mb, nb, rsrc, csrc, lld. -/
structure Descriptor where
  dtype : ℤ
  ctxt : ℤ
  m : ℕ
  n : ℕ
  mb : ℕ
  nb : ℕ
  rsrc : ℕ
  csrc : ℕ
  lld : ℕ
deriving DecidableEq

/-- scalapack descset: fill all nine descriptor entries (dtype is the
block-cyclic sentinel 1). -/
def descset (m n mb nb rsrc csrc : ℕ) (ctxt : ℤ) (lld : ℕ) : Descriptor :=
  ⟨1, ctxt, m, n, mb, nb, rsrc, csrc, lld⟩

/-- ScaLAPACK numroc reference semantics: number of rows or columns of a
global dimension n, distributed in blocks of nb over nprocs processes
starting at isrcproc, that land on process iproc. -/
def numroc (n nb iproc isrcproc nprocs : ℕ) : ℕ :=
  let mydist := (nprocs + iproc - isrcproc) % nprocs
  let nblocks := n / nb
  let base := nblocks / nprocs * nb
  let extra := nblocks % nprocs
  if mydist < extra then base + nb
  else if mydist = extra then base + n % nb
  else base

lemma numroc_eq (n nb p P : ℕ) (hp : p < P) :
    numroc n nb p 0 P =
      (if p < n / nb % P then n / nb / P * nb + nb
       else if p = n / nb % P then n / nb / P * nb + n % nb
       else n / nb / P * nb) := by
  have h1 : (P + p - 0) % P = p := by
    simp [Nat.add_mod_left, Nat.mod_eq_of_lt hp]
  rw [numroc]
  simp only [h1]

/-- A global index below the global extent has a local index below the
local extent numroc reports for its owner. -/
lemma g2lF_lt_numroc (b P n g : ℕ) (hb : 0 < b) (hP : 0 < P) (hg : g < n) :
    g2lF b P g < numroc n b (g2pF b P g) 0 P := by
  have hplt : g2pF b P g < P := g2pF_lt b P g hP
  rw [numroc_eq n b (g2pF b P g) P hplt, g2lF_eq, g2pF_eq]
  have hsb : g % b < b := Nat.mod_lt _ hb
  have hgdd : g / (b * P) = g / b / P := (Nat.div_div_eq_div_mul g b P).symm
  rw [hgdd]
  have hTle : g / b ≤ n / b := Nat.div_le_div_right (le_of_lt hg)
  rcases Nat.lt_or_ge (g / b) (n / b) with hTlt | hTge
  · have hale : g / b / P ≤ n / b / P := Nat.div_le_div_right hTle
    rcases Nat.lt_or_ge (g / b / P) (n / b / P) with halt | hage
    · have hlb : b * (g / b / P) + g % b < b * (n / b / P) := by
        calc b * (g / b / P) + g % b
            < b * (g / b / P) + b := Nat.add_lt_add_left hsb _
          _ = b * (g / b / P + 1) := (Nat.mul_succ b _).symm
          _ ≤ b * (n / b / P) := Nat.mul_le_mul_left _ halt
      have hcm : b * (n / b / P) = n / b / P * b := Nat.mul_comm _ _
      split
      · refine lt_of_lt_of_le hlb ?_
        rw [hcm]
        exact Nat.le_add_right _ _
      · split
        · refine lt_of_lt_of_le hlb ?_
          rw [hcm]
          exact Nat.le_add_right _ _
        · refine lt_of_lt_of_le hlb ?_
          rw [hcm]
    · have haeq : g / b / P = n / b / P := le_antisymm hale hage
      have hTP := Nat.div_add_mod (g / b) P
      have hNP := Nat.div_add_mod (n / b) P
      have h6 : P * (g / b / P) + g / b % P < P * (n / b / P) + n / b % P := by
        rw [hTP, hNP]
        exact hTlt
      rw [haeq] at h6
      have hpe : g / b % P < n / b % P := Nat.lt_of_add_lt_add_left h6
      rw [if_pos hpe, haeq, Nat.mul_comm b]
      exact Nat.add_lt_add_left hsb _
  · have hTeq : g / b = n / b := le_antisymm hTle hTge
    have hTdm := Nat.div_add_mod g b
    have hNdm := Nat.div_add_mod n b
    have h7 : b * (g / b) + g % b < b * (n / b) + n % b := by
      rw [hTdm, hNdm]
      exact hg
    rw [hTeq] at h7
    have hsn : g % b < n % b := Nat.lt_of_add_lt_add_left h7
    have hmeq : g / b % P = n / b % P := by rw [hTeq]
    have haeq : g / b / P = n / b / P := by rw [hTeq]
    rw [if_neg (by rw [hmeq]; exact lt_irrefl _), if_pos hmeq, haeq,
      Nat.mul_comm b]
    exact Nat.add_lt_add_left hsn _

/-- DistributedMatrix: grid reference (none = nullptr), local extents,
optional local buffer (none = nullptr), descriptor. The local buffer is
modelled as a total function from (local row, local col); entries outside
the local rectangle are junk. -/
structure DM where
  grid : Option GridInfo
  lrows : ℕ
  lcols : ℕ
  data : Option (ℕ → ℕ → ℚ)
  desc : Descriptor

/-- active() = grid() and grid()->active(). -/
def DM.active (A : DM) : Bool :=
  match A.grid with
  | some gi => gi.active
  | none => false

def DM.prowD (A : DM) : ℕ := (A.grid.getD default).prow

def DM.pcolD (A : DM) : ℕ := (A.grid.getD default).pcol

def DM.nprowsD (A : DM) : ℕ := (A.grid.getD default).nprows

def DM.npcolsD (A : DM) : ℕ := (A.grid.getD default).npcols

/-- rowl2g of the base class (I() = 1). -/
def DM.rowl2g (A : DM) (r : ℕ) : ℕ := l2gF A.desc.mb A.nprowsD A.prowD r

/-- coll2g of the base class (J() = 1). -/
def DM.coll2g (A : DM) (c : ℕ) : ℕ := l2gF A.desc.nb A.npcolsD A.pcolD c

/-- Constructor DistributedMatrix(g, M, N, MB, NB)
    (DistributedMatrix.hpp lines 652-673). The fresh buffer contents are
    uninitialized; they are supplied as a parameter. -/
def mkDM (g : Option GridInfo) (M N MB NB : ℕ) (uninit : ℕ → ℕ → ℚ) : DM :=
  let MBp := max 1 MB
  let NBp := max 1 NB
  match g with
  | none =>
    { grid := none, lrows := 0, lcols := 0, data := none,
      desc := descset M N MBp NBp 0 0 (-1) 1 }
  | some gi =>
    if gi.active then
      let lr := numroc M MBp gi.prow 0 gi.nprows
      let lc := numroc N NBp gi.pcol 0 gi.npcols
      { grid := some gi, lrows := lr, lcols := lc, data := some uninit,
        desc := descset M N MBp NBp 0 0 gi.ctxt (max lr 1) }
    else
      { grid := some gi, lrows := 0, lcols := 0, data := none,
        desc := descset M N MBp NBp 0 0 (-1) 1 }

/-- Constructor DistributedMatrix(g, desc[9])
    (DistributedMatrix.hpp lines 675-689), modelled exactly as written:
    note the branch condition in the source is if (active()), so the
    zero/null branch is taken by ACTIVE workers and the numroc/allocate
    branch by inactive ones. On an inactive worker the source still calls
    prow()/pcol() through the (possibly null) grid pointer; deref of a
    null grid is modelled by the default GridInfo. A buffer is allocated
    when both local extents are nonzero. -/
def fromDesc (g : Option GridInfo) (d : Descriptor) (uninit : ℕ → ℕ → ℚ) : DM :=
  let act : Bool := match g with | some gi => gi.active | none => false
  if act then { grid := g, lrows := 0, lcols := 0, data := none, desc := d }
  else
    let gi := g.getD default
    let lr := numroc d.m d.mb gi.prow d.rsrc gi.nprows
    let lc := numroc d.n d.nb gi.pcol d.csrc gi.npcols
    { grid := g, lrows := lr, lcols := lc,
      data := if lr ≠ 0 ∧ lc ≠ 0 then some uninit else none, desc := d }

/-- C4: the claim says every constructor leaves an inactive worker with
lrows = lcols = 0 and a null buffer. The descriptor constructor has its
activity test inverted (line 679 tests if (active()) where the sibling
shape constructor at line 657 tests if (!active())): on an inactive
worker with grid coordinates (0,0) of a 1x1 arrangement and a 4x4
descriptor with 2x2 blocks it computes lrows = lcols = 4 via numroc and
allocates a buffer, contradicting the claim; an active worker conversely
gets an empty matrix. -/
theorem C4_desc_constructor_bug :
    DM.active (fromDesc (some ⟨false, 0, 0, 1, 1, -1⟩)
      (descset 4 4 2 2 0 0 (-1) 4) (fun _ _ => 0)) = false ∧
    (fromDesc (some ⟨false, 0, 0, 1, 1, -1⟩)
      (descset 4 4 2 2 0 0 (-1) 4) (fun _ _ => 0)).lrows = 4 ∧
    (fromDesc (some ⟨false, 0, 0, 1, 1, -1⟩)
      (descset 4 4 2 2 0 0 (-1) 4) (fun _ _ => 0)).lcols = 4 ∧
    (fromDesc (some ⟨false, 0, 0, 1, 1, -1⟩)
      (descset 4 4 2 2 0 0 (-1) 4) (fun _ _ => 0)).data.isSome = true ∧
    (fromDesc (some ⟨true, 0, 0, 1, 1, 0⟩)
      (descset 4 4 2 2 0 0 0 4) (fun _ _ => 0)).lrows = 0 ∧
    (fromDesc (some ⟨true, 0, 0, 1, 1, 0⟩)
      (descset 4 4 2 2 0 0 0 4) (fun _ _ => 0)).data.isNone = true := by
  refine ⟨rfl, by decide, by decide, rfl, rfl, rfl⟩

/-! ## Move construction and move assignment
    (DistributedMatrix.hpp lines 638-644 and 710-719). -/

/-- Move constructor: returns (destination, moved-from source). The
destination copies grid, extents and descriptor and steals the buffer;
the source only has its data pointer nulled. -/
def moveCtor (m : DM) : DM × DM :=
  ({ grid := m.grid, lrows := m.lrows, lcols := m.lcols,
     data := m.data, desc := m.desc },
   { m with data := none })

/-- Move assignment: the destination's old buffer is deleted (not
modelled as a heap here; see the C10 heap model) and all fields are taken
from the source; the source only has its data pointer nulled. -/
def moveAssign (dst m : DM) : DM × DM :=
  ({ dst with
      grid := m.grid
      lrows := m.lrows
      lcols := m.lcols
      data := m.data
      desc := m.desc },
   { m with data := none })

/-- C6 counterexample: the claim states the moved-from source is left
with local row and column counts 0; in the source only the data pointer
is nulled and the counts keep their former values (3 and 2 here). -/
theorem C6_move_counterexample :
    (moveCtor ⟨none, 3, 2, some (fun _ _ => 1), descset 6 2 1 1 0 0 (-1) 3⟩).2.lrows ≠ 0 ∧
    (moveAssign ⟨none, 0, 0, none, descset 0 0 1 1 0 0 (-1) 1⟩
      ⟨none, 3, 2, some (fun _ _ => 1), descset 6 2 1 1 0 0 (-1) 3⟩).2.lrows ≠ 0 := by
  refine ⟨by decide, by decide⟩

/-- C6 amended: after move construction or move assignment the
destination holds the source's former buffer, grid and descriptor and
local extents; the moved-from source has its buffer pointer nulled
(ownership transferred) while its local row and column counts retain
their former values rather than being reset to 0. -/
theorem C6_move_amended (dst m : DM) :
    (moveCtor m).1.grid = m.grid ∧ (moveCtor m).1.data = m.data ∧
    (moveCtor m).1.desc = m.desc ∧ (moveCtor m).1.lrows = m.lrows ∧
    (moveCtor m).1.lcols = m.lcols ∧ (moveCtor m).2.data = none ∧
    (moveCtor m).2.lrows = m.lrows ∧ (moveCtor m).2.lcols = m.lcols ∧
    (moveAssign dst m).1.grid = m.grid ∧ (moveAssign dst m).1.data = m.data ∧
    (moveAssign dst m).1.desc = m.desc ∧ (moveAssign dst m).1.lrows = m.lrows ∧
    (moveAssign dst m).1.lcols = m.lcols ∧ (moveAssign dst m).2.data = none ∧
    (moveAssign dst m).2.lrows = m.lrows ∧ (moveAssign dst m).2.lcols = m.lcols :=
  ⟨rfl, rfl, rfl, rfl, rfl, rfl, rfl, rfl, rfl, rfl, rfl, rfl, rfl, rfl, rfl, rfl⟩

/-! ## Local fill operations (DistributedMatrix.hpp lines 754-817)
    All iterate the local rectangle given by the base-class lranges,
    which is (0, lrows) x (0, lcols). -/

def DM.zeroOp (A : DM) : DM :=
  if A.active then
    { A with data := A.data.map (fun f r c =>
        if r < A.lrows ∧ c < A.lcols then 0 else f r c) }
  else A

def DM.fillOp (A : DM) (v : ℚ) : DM :=
  if A.active then
    { A with data := A.data.map (fun f r c =>
        if r < A.lrows ∧ c < A.lcols then v else f r c) }
  else A

def DM.eyeOp (A : DM) : DM :=
  if A.active then
    { A with data := A.data.map (fun f r c =>
        if r < A.lrows ∧ c < A.lcols then
          (if A.rowl2g r = A.coll2g c then 1 else 0)
        else f r c) }
  else A

/-- shift(sigma) has no activity guard in the source; its loops over the
base-class lranges are simply empty when the local extents are zero. -/
def DM.shiftOp (A : DM) (σ : ℚ) : DM :=
  { A with data := A.data.map (fun f r c =>
      if r < A.lrows ∧ c < A.lcols ∧ A.rowl2g r = A.coll2g c
      then f r c + σ else f r c) }

/-- random(): the default generator is seeded from (prow, pcol) and
consumed in column-major loop order; mkRand prow pcol k is the k-th
value of the stream with that seed. -/
def DM.randomOp (A : DM) (mkRand : ℕ → ℕ → ℕ → ℚ) : DM :=
  if A.active then
    { A with data := A.data.map (fun f r c =>
        if r < A.lrows ∧ c < A.lcols
        then mkRand A.prowD A.pcolD (c * A.lrows + r) else f r c) }
  else A

/-- random(rgen): caller-supplied generator, consumed in the same order. -/
def DM.randomGenOp (A : DM) (rgen : ℕ → ℚ) : DM :=
  if A.active then
    { A with data := A.data.map (fun f r c =>
        if r < A.lrows ∧ c < A.lcols then rgen (c * A.lrows + r) else f r c) }
  else A

/-- C7: on an inactive worker (whose matrix satisfies the inactive-state
invariant lrows = lcols = 0, as established by the shape constructors),
zero, fill, eye, shift, random and random(rgen) all leave the matrix --
buffer, local counts and descriptor -- completely unchanged. zero, fill,
eye and random return through the explicit inactivity guard; shift has no
guard but its loop ranges are empty. -/
theorem C7_inactive_noops (A : DM) (v σ : ℚ)
    (mkRand : ℕ → ℕ → ℕ → ℚ) (rgen : ℕ → ℚ)
    (hA : A.active = false) (hr : A.lrows = 0) (hc : A.lcols = 0) :
    A.zeroOp = A ∧ A.fillOp v = A ∧ A.eyeOp = A ∧ A.shiftOp σ = A ∧
    A.randomOp mkRand = A ∧ A.randomGenOp rgen = A := by
  refine ⟨by simp [DM.zeroOp, hA], by simp [DM.fillOp, hA],
    by simp [DM.eyeOp, hA], ?_, by simp [DM.randomOp, hA],
    by simp [DM.randomGenOp, hA]⟩
  obtain ⟨g, lr, lc, dt, ds⟩ := A
  simp only at hr hc
  subst hr
  cases dt with
  | none => rfl
  | some f => rfl

/-- Witness for C7 on a grid-less (hence inactive) empty matrix. -/
theorem C7_inactive_noops_witness :
    DM.zeroOp ⟨none, 0, 0, none, descset 0 0 1 1 0 0 (-1) 1⟩ =
      ⟨none, 0, 0, none, descset 0 0 1 1 0 0 (-1) 1⟩ ∧
    DM.fillOp ⟨none, 0, 0, none, descset 0 0 1 1 0 0 (-1) 1⟩ 7 =
      ⟨none, 0, 0, none, descset 0 0 1 1 0 0 (-1) 1⟩ ∧
    DM.eyeOp ⟨none, 0, 0, none, descset 0 0 1 1 0 0 (-1) 1⟩ =
      ⟨none, 0, 0, none, descset 0 0 1 1 0 0 (-1) 1⟩ ∧
    DM.shiftOp ⟨none, 0, 0, none, descset 0 0 1 1 0 0 (-1) 1⟩ 2 =
      ⟨none, 0, 0, none, descset 0 0 1 1 0 0 (-1) 1⟩ ∧
    DM.randomOp ⟨none, 0, 0, none, descset 0 0 1 1 0 0 (-1) 1⟩
      (fun _ _ _ => 0) = ⟨none, 0, 0, none, descset 0 0 1 1 0 0 (-1) 1⟩ ∧
    DM.randomGenOp ⟨none, 0, 0, none, descset 0 0 1 1 0 0 (-1) 1⟩
      (fun _ => 0) = ⟨none, 0, 0, none, descset 0 0 1 1 0 0 (-1) 1⟩ :=
  C7_inactive_noops ⟨none, 0, 0, none, descset 0 0 1 1 0 0 (-1) 1⟩
    7 2 (fun _ _ _ => 0) (fun _ => 0) rfl rfl rfl

/-! ## Non-owning view (DistributedMatrixWrapper) -/

/-- A view: the inherited DistributedMatrix part (sharing the owner's
buffer and descriptor) plus its own advertised shape and offset. -/
structure DMW where
  base : DM
  rows : ℕ
  cols : ℕ
  i : ℕ
  j : ℕ

/-- Wrapper resize override (line 338): the body is assert(1), a no-op. -/
def DMW.resizeW (w : DMW) (_m _n : ℕ) : DMW := w

/-- Wrapper hconcat override (line 339): the body is assert(1), a no-op. -/
def DMW.hconcatW (w : DMW) (_b : DM) : DMW := w

/-- C8: resize and hconcat on a view are no-ops: the view itself, its
advertised shape, its descriptor and the shared buffer reference are all
unchanged, and the owner (which the overrides never touch) keeps its
buffer and data. -/
theorem C8_view_resize_hconcat_noop (w : DMW) (m n : ℕ) (b : DM) :
    w.resizeW m n = w ∧ w.hconcatW b = w ∧
    (w.resizeW m n).rows = w.rows ∧ (w.resizeW m n).cols = w.cols ∧
    (w.resizeW m n).base.desc = w.base.desc ∧
    (w.resizeW m n).base.data = w.base.data ∧
    (w.hconcatW b).base.data = w.base.data :=
  ⟨rfl, rfl, rfl, rfl, rfl, rfl, rfl⟩

/-! ## Norms (DistributedMatrix.hpp lines 1056-1093)
    The local plange kernel and the grid reduction are external; the
    value they produce on an active worker is abstracted as a parameter.
    All four methods are const: they only return a value. -/

def DM.norm1V (A : DM) (plange1 : ℚ) : ℚ := if A.active then plange1 else -1

def DM.normIV (A : DM) (plangeI : ℚ) : ℚ := if A.active then plangeI else -1

def DM.normFV (A : DM) (plangeF : ℚ) : ℚ := if A.active then plangeF else -1

/-- norm() simply returns normF(). -/
def DM.normV (A : DM) (plangeF : ℚ) : ℚ := A.normFV plangeF

/-- C9: on an inactive worker, norm, norm1, normI and normF all return
the sentinel -1, a negative value, and (being const methods modelled as
pure functions) leave the matrix unchanged. -/
theorem C9_inactive_norm_sentinel (A : DM) (v1 vI vF : ℚ)
    (hA : A.active = false) :
    A.normV vF = -1 ∧ A.norm1V v1 = -1 ∧ A.normIV vI = -1 ∧
    A.normFV vF = -1 ∧ A.normV vF < 0 := by
  simp [DM.normV, DM.norm1V, DM.normIV, DM.normFV, hA]

/-- Witness for C9 on a grid-less (hence inactive) matrix. -/
theorem C9_inactive_norm_sentinel_witness :
    DM.normV ⟨none, 0, 0, none, descset 0 0 1 1 0 0 (-1) 1⟩ 5 = -1 ∧
    DM.norm1V ⟨none, 0, 0, none, descset 0 0 1 1 0 0 (-1) 1⟩ 3 = -1 ∧
    DM.normIV ⟨none, 0, 0, none, descset 0 0 1 1 0 0 (-1) 1⟩ 4 = -1 ∧
    DM.normFV ⟨none, 0, 0, none, descset 0 0 1 1 0 0 (-1) 1⟩ 5 = -1 ∧
    DM.normV ⟨none, 0, 0, none, descset 0 0 1 1 0 0 (-1) 1⟩ 5 < 0 :=
  C9_inactive_norm_sentinel ⟨none, 0, 0, none, descset 0 0 1 1 0 0 (-1) 1⟩
    3 4 5 rfl

/-! ## Heap model for clear and the wrapper destructor
    (DistributedMatrix.hpp lines 325, 340-341, 728-733). Buffers live in
    a heap indexed by allocation ids; data pointers are ids. -/

def HeapM := ℕ → Option (ℕ → ℕ → ℚ)

/-- A matrix whose buffer is a heap pointer rather than inline data. -/
structure DMH where
  grid : Option GridInfo
  lrows : ℕ
  lcols : ℕ
  data : Option ℕ
  desc : Descriptor

/-- delete[] on a possibly null pointer: frees the allocation if any. -/
def hfree (h : HeapM) (p : Option ℕ) : HeapM :=
  match p with
  | none => h
  | some q => fun x => if x = q then none else h x

/-- DistributedMatrix::clear(): delete[] data_, null it, zero the local
extents and reset the descriptor via descset(0, 0, MB, NB, 0, 0, ctxt, 1). -/
def DMH.clearBase (h : HeapM) (A : DMH) : HeapM × DMH :=
  (hfree h A.data,
   { A with
      data := none
      lrows := 0
      lcols := 0
      desc := descset 0 0 A.desc.mb A.desc.nb 0 0
        (match A.grid with | some gi => gi.ctxt | none => -1) 1 })

/-- DistributedMatrixWrapper::clear(): null the wrapper's data pointer
first, then run the base-class clear. -/
def DMH.clearWrapper (h : HeapM) (A : DMH) : HeapM × DMH :=
  DMH.clearBase h { A with data := none }

/-- DistributedMatrixWrapper destructor: nulls data_, after which the
base-class destructor runs clear() on the nulled pointer. -/
def DMH.dtorWrapper (h : HeapM) (A : DMH) : HeapM × DMH :=
  DMH.clearBase h { A with data := none }

/-- C10: destroying or clearing a view never frees the shared buffer: the
heap is unchanged, so the owner's allocation (id p, contents buf) is
intact; by contrast, running the base-class clear directly on the view
(without the wrapper's nulling) would free the owner's allocation. -/
theorem C10_view_clear_preserves_buffer (h : HeapM) (w : DMH) (p : ℕ)
    (buf : ℕ → ℕ → ℚ) (hp : h p = some buf) (hw : w.data = some p) :
    (DMH.clearWrapper h w).1 = h ∧ (DMH.clearWrapper h w).1 p = some buf ∧
    (DMH.dtorWrapper h w).1 = h ∧ (DMH.clearWrapper h w).2.data = none ∧
    (DMH.clearBase h w).1 p = none := by
  refine ⟨rfl, hp, rfl, rfl, ?_⟩
  simp [DMH.clearBase, hfree, hw]

/-- Witness for C10 on a one-cell heap shared by owner and view. -/
theorem C10_view_clear_preserves_buffer_witness :
    (DMH.clearWrapper (fun q => if q = 0 then some (fun _ _ => 1) else none)
      ⟨none, 2, 2, some 0, descset 2 2 1 1 0 0 (-1) 2⟩).1 =
      (fun q => if q = 0 then some (fun _ _ => 1) else none) ∧
    (DMH.clearWrapper (fun q => if q = 0 then some (fun _ _ => 1) else none)
      ⟨none, 2, 2, some 0, descset 2 2 1 1 0 0 (-1) 2⟩).1 0 =
      some (fun _ _ => 1) ∧
    (DMH.dtorWrapper (fun q => if q = 0 then some (fun _ _ => 1) else none)
      ⟨none, 2, 2, some 0, descset 2 2 1 1 0 0 (-1) 2⟩).1 =
      (fun q => if q = 0 then some (fun _ _ => 1) else none) ∧
    (DMH.clearWrapper (fun q => if q = 0 then some (fun _ _ => 1) else none)
      ⟨none, 2, 2, some 0, descset 2 2 1 1 0 0 (-1) 2⟩).2.data = none ∧
    (DMH.clearBase (fun q => if q = 0 then some (fun _ _ => 1) else none)
      ⟨none, 2, 2, some 0, descset 2 2 1 1 0 0 (-1) 2⟩).1 0 = none :=
  C10_view_clear_preserves_buffer
    (fun q => if q = 0 then some (fun _ _ => 1) else none)
    ⟨none, 2, 2, some 0, descset 2 2 1 1 0 0 (-1) 2⟩ 0 (fun _ _ => 1) rfl rfl

/-! ## Interpolative decomposition, column version
    (DistributedMatrix.hpp lines 1321-1346). The rank-revealing kernel
    pgeqpfmod lives outside this source region; its outputs -- the rank,
    the permuted 1-based column list _J, the 1-based column permutation
    gpiv, and the factored matrix content R left in data_ -- are taken as
    parameters. ptrsm (Side L, UpLo U, Trans N, Diag N, alpha 1) is
    modelled by exact back substitution on the upper triangle. -/

/-- std::vector resize: truncate, or pad with value-initialized zeros. -/
def vresize (v : List ℤ) (nsz : ℕ) : List ℤ :=
  v.take nsz ++ List.replicate (nsz - v.length) 0

lemma vresize_length (v : List ℤ) (nsz : ℕ) : (vresize v nsz).length = nsz := by
  simp [vresize]
  omega

/-- The piv output of ID_column: resize the incoming vector to
lcols + NB, then overwrite entry c with gpiv[coll2g(c)] for every
locally owned column c < lcols. -/
def ID_piv (pivIn gpiv : List ℤ) (lcols NB npcols pcol : ℕ) : List ℤ :=
  (List.range lcols).foldl
    (fun v c => v.set c (gpiv.getD (l2gF NB npcols pcol c) 0))
    (vresize pivIn (lcols + NB))

/-- The ind output of ID_column: the first rank entries of the permuted
column list, shifted to 0-based. -/
def ID_ind (Jl : List ℤ) (rank : ℕ) : List ℤ :=
  (List.range rank).map (fun c => Jl.getD c 0 - 1)

lemma foldl_set_length (f : ℕ → ℤ) :
    ∀ (l : List ℕ) (v : List ℤ),
      (l.foldl (fun v c => v.set c (f c)) v).length = v.length := by
  intro l
  induction l with
  | nil => intro v; rfl
  | cons a t ih =>
    intro v
    simp only [List.foldl_cons]
    rw [ih]
    simp

lemma foldl_set_range_getD (f : ℕ → ℤ) :
    ∀ (n : ℕ) (v : List ℤ) (i : ℕ), i < n → i < v.length →
      ((List.range n).foldl (fun v c => v.set c (f c)) v).getD i 0 = f i := by
  intro n
  induction n with
  | zero => intro v i hi; omega
  | succ n ih =>
    intro v i hi hv
    rw [List.range_succ, List.foldl_append]
    set acc := (List.range n).foldl (fun v c => v.set c (f c)) v with hacc
    have hlen : acc.length = v.length := foldl_set_length f _ v
    simp only [List.foldl_cons, List.foldl_nil]
    rcases Nat.lt_or_ge i n with hin | hin
    · have hne : n ≠ i := by omega
      rw [List.getD_eq_getElem?_getD, List.getElem?_set_ne hne,
        ← List.getD_eq_getElem?_getD]
      exact ih v i hin hv
    · have hieq : i = n := by omega
      subst hieq
      rw [List.getD_eq_getElem?_getD, List.getElem?_set_self (by omega)]
      rfl

/-- Back substitution: solve the upper-triangular n x n system
U x = b reading only entries U i k with i <= k < n (as ptrsm with
UpLo U does). -/
def usolve (n : ℕ) (U : ℕ → ℕ → ℚ) (b : ℕ → ℚ) (i : ℕ) : ℚ :=
  if h : i < n then
    (b i - ∑ k ∈ (Finset.Ico (i + 1) n).attach,
      U i k.1 * usolve n U b k.1) / U i i
  else 0
termination_by n - i
decreasing_by
  have hk := k.2
  rw [Finset.mem_Ico] at hk
  omega

lemma usolve_spec (n : ℕ) (U : ℕ → ℕ → ℚ) (b : ℕ → ℚ)
    (hdiag : ∀ i, i < n → U i i ≠ 0) (i : ℕ) (hi : i < n) :
    ∑ k ∈ Finset.Ico i n, U i k * usolve n U b k = b i := by
  rw [Finset.sum_eq_sum_Ico_succ_bot hi]
  have hu : usolve n U b i =
      (b i - ∑ k ∈ Finset.Ico (i + 1) n, U i k * usolve n U b k) / U i i := by
    rw [usolve, dif_pos hi,
      Finset.sum_attach (Finset.Ico (i + 1) n)
        (fun k => U i k * usolve n U b k)]
  rw [hu, mul_comm, div_mul_cancel₀ _ (hdiag i hi)]
  ring

/-- The X output of ID_column: copy columns rank..cols of the factored
matrix (the block R2), then solve R1 X = R2 with the leading rank x rank
upper triangle R1. -/
def ID_X (R : ℕ → ℕ → ℚ) (rank : ℕ) : ℕ → ℕ → ℚ :=
  fun i j => usolve rank R (fun a => R a (rank + j)) i

/-- C3: on an active matrix, after the rank-revealing kernel determined
rank, the permuted column list _J, the permutation gpiv and left the
factor R in place, ID_column returns piv of size lcols + NB whose entry
at every locally owned column c is gpiv[coll2g(c)] (the global pivot
position); ind of size rank listing the first rank pivoted global column
indices (_J[c] - 1); and X of shape rank x (cols - rank) solving the
upper-triangular system R1 X = R2 formed by the leading rank x rank
block against the trailing columns, i.e. X = R1^-1 R2. -/
theorem C3_ID_column_outputs (pivIn gpiv Jl : List ℤ) (R : ℕ → ℕ → ℚ)
    (lcols NB npcols pcol rank cols : ℕ)
    (hdiag : ∀ i, i < rank → R i i ≠ 0) :
    (ID_piv pivIn gpiv lcols NB npcols pcol).length = lcols + NB ∧
    (∀ c, c < lcols → (ID_piv pivIn gpiv lcols NB npcols pcol).getD c 0 =
      gpiv.getD (l2gF NB npcols pcol c) 0) ∧
    (ID_ind Jl rank).length = rank ∧
    (∀ c, c < rank → (ID_ind Jl rank).getD c 0 = Jl.getD c 0 - 1) ∧
    (∀ i, i < rank → ∀ j, j < cols - rank →
      ∑ k ∈ Finset.Ico i rank, R i k * ID_X R rank k j = R i (rank + j)) := by
  refine ⟨?_, ?_, ?_, ?_, ?_⟩
  · rw [ID_piv, foldl_set_length, vresize_length]
  · intro c hc
    rw [ID_piv]
    exact foldl_set_range_getD _ lcols _ c hc (by rw [vresize_length]; omega)
  · simp [ID_ind]
  · intro c hc
    rw [ID_ind]
    rw [List.getD_eq_getElem?_getD, List.getElem?_map]
    simp [List.getElem?_range hc]
  · intro i hi j _
    exact usolve_spec rank R (fun a => R a (rank + j)) hdiag i hi

/-- Witness for C3 at rank 1, cols 2, lcols 1, NB 1, one process column,
with gpiv = [7, 9], _J = [2, 1] and factor R with R(0,0) = 2. -/
theorem C3_ID_column_outputs_witness :
    (ID_piv [] [7, 9] 1 1 1 0).length = 1 + 1 ∧
    (∀ c, c < 1 → (ID_piv [] [7, 9] 1 1 1 0).getD c 0 =
      List.getD [7, 9] (l2gF 1 1 0 c) 0) ∧
    (ID_ind [2, 1] 1).length = 1 ∧
    (∀ c, c < 1 → (ID_ind [2, 1] 1).getD c 0 = List.getD [2, 1] c 0 - 1) ∧
    (∀ i, i < 1 → ∀ j, j < 2 - 1 →
      ∑ k ∈ Finset.Ico i 1,
        (fun a b => if a = 0 ∧ b = 0 then (2 : ℚ) else 6) i k *
          ID_X (fun a b => if a = 0 ∧ b = 0 then (2 : ℚ) else 6) 1 k j =
      (fun a b => if a = 0 ∧ b = 0 then (2 : ℚ) else 6) i (1 + j)) :=
  C3_ID_column_outputs [] [7, 9] [2, 1]
    (fun a b => if a = 0 ∧ b = 0 then (2 : ℚ) else 6) 1 1 1 0 1 2
    (by intro i hi; interval_cases i; norm_num)

/-! ## orthogonalize (DistributedMatrix.hpp lines 1208-1260)
    pgeqrf/pxxgqr are external kernels: the diagonal of the triangular
    factor they leave in place and the orthogonal data they produce are
    parameters. The BLACS reductions gamx2d/gamn2d combine, across all
    grid processes, each process's r_max/r_min variable by
    absolute-value max/min; a process whose local block is empty
    (lrows() and lcols() not both nonzero) never assigns r_max/r_min and
    so contributes the caller-provided values. The fixed() and general
    branches compute the same maxima because fixed() holds exactly when
    MB and NB equal the defaults. -/

structure OP where
  nprows : ℕ
  npcols : ℕ
  MB : ℕ
  NB : ℕ
  rows : ℕ
  cols : ℕ
  R : ℕ → ℚ
  Qd : ℕ → ℕ → ℚ
  NMIN : ℚ
  NMAX : ℚ
  vmax : ℕ → ℕ → ℚ
  vmin : ℕ → ℕ → ℚ

def OP.minmn (x : OP) : ℕ := min x.rows x.cols

/-- Diagonal indices gi < min(rows, cols) local to process (pr, pc):
the loop over gi guarded by is_local(gi, gi). -/
def OP.diagIdx (x : OP) (pr pc : ℕ) : List ℕ :=
  (List.range x.minmn).filter
    (fun gi => decide (g2pF x.MB x.nprows gi = pr ∧ g2pF x.NB x.npcols gi = pc))

/-- Rmax accumulation: start at numeric_limits::min(), fold in the
magnitude of every locally owned diagonal entry. -/
def OP.localRmax (x : OP) (pr pc : ℕ) : ℚ :=
  (x.diagIdx pr pc).foldl (fun a gi => max a |x.R gi|) x.NMIN

/-- Rmin accumulation: start at numeric_limits::max(). -/
def OP.localRmin (x : OP) (pr pc : ℕ) : ℚ :=
  (x.diagIdx pr pc).foldl (fun a gi => min a |x.R gi|) x.NMAX

/-- The r_max value process (pr, pc) feeds into the reduction: the local
accumulation if its local block is nonempty, otherwise the caller's
untouched variable. -/
def OP.contribMax (x : OP) (pr pc : ℕ) : ℚ :=
  if numroc x.rows x.MB pr 0 x.nprows ≠ 0 ∧ numroc x.cols x.NB pc 0 x.npcols ≠ 0
  then x.localRmax pr pc else x.vmax pr pc

def OP.contribMin (x : OP) (pr pc : ℕ) : ℚ :=
  if numroc x.rows x.MB pr 0 x.nprows ≠ 0 ∧ numroc x.cols x.NB pc 0 x.npcols ≠ 0
  then x.localRmin pr pc else x.vmin pr pc

def OP.procs (x : OP) : List (ℕ × ℕ) :=
  (List.range x.nprows).product (List.range x.npcols)

/-- BLACS gamx2d over all grid processes: the value of largest
magnitude among the contributed values. -/
def gamx2dM (vs : List ℚ) : ℚ :=
  vs.foldl (fun a b => if |a| < |b| then b else a) (vs.headD 0)

/-- BLACS gamn2d: the value of smallest magnitude. -/
def gamn2dM (vs : List ℚ) : ℚ :=
  vs.foldl (fun a b => if |b| < |a| then b else a) (vs.headD 0)

def OP.rmaxOut (x : OP) : ℚ :=
  gamx2dM (x.procs.map (fun q => x.contribMax q.1 q.2))

def OP.rminOut (x : OP) : ℚ :=
  gamn2dM (x.procs.map (fun q => x.contribMin q.1 q.2))

/-- Matrix content after orthogonalize: the orthogonal factor, with the
trailing cols - rows columns explicitly zeroed (through a wrapper view
over global rows [0, rows) and columns [rows, cols)) when cols > rows. -/
def OP.orthData (x : OP) : ℕ → ℕ → ℚ :=
  fun i j =>
    if x.rows < x.cols ∧ x.rows ≤ j ∧ j < x.cols ∧ i < x.rows then 0
    else x.Qd i j

lemma foldl_max_le_init {α : Type} (f : α → ℚ) :
    ∀ (l : List α) (a : ℚ), a ≤ l.foldl (fun acc g => max acc (f g)) a := by
  intro l
  induction l with
  | nil => intro a; exact le_refl a
  | cons b t ih =>
    intro a
    simp only [List.foldl_cons]
    exact le_trans (le_max_left a (f b)) (ih (max a (f b)))

lemma foldl_max_le_of_mem {α : Type} (f : α → ℚ) :
    ∀ (l : List α) (a : ℚ) (g : α), g ∈ l →
      f g ≤ l.foldl (fun acc h => max acc (f h)) a := by
  intro l
  induction l with
  | nil => intro a g hg; cases hg
  | cons b t ih =>
    intro a g hg
    simp only [List.foldl_cons]
    rcases List.mem_cons.mp hg with h | h
    · subst h
      exact le_trans (le_max_right a (f g)) (foldl_max_le_init f t _)
    · exact ih _ g h

lemma foldl_max_eq_init_or_mem {α : Type} (f : α → ℚ) :
    ∀ (l : List α) (a : ℚ), l.foldl (fun acc g => max acc (f g)) a = a ∨
      ∃ g ∈ l, l.foldl (fun acc g => max acc (f g)) a = f g := by
  intro l
  induction l with
  | nil => intro a; left; rfl
  | cons b t ih =>
    intro a
    simp only [List.foldl_cons]
    rcases ih (max a (f b)) with h | ⟨g, hg, hres⟩
    · rcases le_total a (f b) with hab | hab
      · right
        exact ⟨b, List.mem_cons_self b t, by rw [h, max_eq_right hab]⟩
      · left
        rw [h, max_eq_left hab]
    · right
      exact ⟨g, List.mem_cons_of_mem _ hg, hres⟩

lemma foldl_min_init_le {α : Type} (f : α → ℚ) :
    ∀ (l : List α) (a : ℚ), l.foldl (fun acc g => min acc (f g)) a ≤ a := by
  intro l
  induction l with
  | nil => intro a; exact le_refl a
  | cons b t ih =>
    intro a
    simp only [List.foldl_cons]
    exact le_trans (ih (min a (f b))) (min_le_left a (f b))

lemma foldl_min_le_of_mem {α : Type} (f : α → ℚ) :
    ∀ (l : List α) (a : ℚ) (g : α), g ∈ l →
      l.foldl (fun acc h => min acc (f h)) a ≤ f g := by
  intro l
  induction l with
  | nil => intro a g hg; cases hg
  | cons b t ih =>
    intro a g hg
    simp only [List.foldl_cons]
    rcases List.mem_cons.mp hg with h | h
    · subst h
      exact le_trans (foldl_min_init_le f t _) (min_le_right a (f g))
    · exact ih _ g h

lemma foldl_min_eq_init_or_mem {α : Type} (f : α → ℚ) :
    ∀ (l : List α) (a : ℚ), l.foldl (fun acc g => min acc (f g)) a = a ∨
      ∃ g ∈ l, l.foldl (fun acc g => min acc (f g)) a = f g := by
  intro l
  induction l with
  | nil => intro a; left; rfl
  | cons b t ih =>
    intro a
    simp only [List.foldl_cons]
    rcases ih (min a (f b)) with h | ⟨g, hg, hres⟩
    · rcases le_total a (f b) with hab | hab
      · left
        rw [h, min_eq_left hab]
      · right
        exact ⟨b, List.mem_cons_self b t, by rw [h, min_eq_right hab]⟩
    · right
      exact ⟨g, List.mem_cons_of_mem _ hg, hres⟩

lemma absmax_step_eq (a b : ℚ) (ha : 0 < a) (hb : 0 < b) :
    (if |a| < |b| then b else a) = max a b := by
  rw [abs_of_pos ha, abs_of_pos hb]
  rcases lt_or_ge a b with h | h
  · rw [if_pos h, max_eq_right h.le]
  · rw [if_neg (not_lt.mpr h), max_eq_left h]

lemma absmin_step_eq (a b : ℚ) (ha : 0 < a) (hb : 0 < b) :
    (if |b| < |a| then b else a) = min a b := by
  rw [abs_of_pos ha, abs_of_pos hb]
  rcases lt_or_ge b a with h | h
  · rw [if_pos h, min_eq_right h.le]
  · rw [if_neg (not_lt.mpr h), min_eq_left h]

lemma absmax_foldl_eq :
    ∀ (l : List ℚ) (a : ℚ), 0 < a → (∀ b ∈ l, 0 < b) →
      l.foldl (fun a b => if |a| < |b| then b else a) a =
        l.foldl (fun acc g => max acc ((fun v => v) g)) a := by
  intro l
  induction l with
  | nil => intro a _ _; rfl
  | cons b t ih =>
    intro a ha hl
    have hb : 0 < b := hl b (List.mem_cons_self b t)
    simp only [List.foldl_cons]
    rw [absmax_step_eq a b ha hb]
    exact ih (max a b) (lt_max_of_lt_left ha)
      (fun c hc => hl c (List.mem_cons_of_mem _ hc))

lemma absmin_foldl_eq :
    ∀ (l : List ℚ) (a : ℚ), 0 < a → (∀ b ∈ l, 0 < b) →
      l.foldl (fun a b => if |b| < |a| then b else a) a =
        l.foldl (fun acc g => min acc ((fun v => v) g)) a := by
  intro l
  induction l with
  | nil => intro a _ _; rfl
  | cons b t ih =>
    intro a ha hl
    have hb : 0 < b := hl b (List.mem_cons_self b t)
    simp only [List.foldl_cons]
    rw [absmin_step_eq a b ha hb]
    exact ih (min a b) (lt_min ha hb)
      (fun c hc => hl c (List.mem_cons_of_mem _ hc))

lemma gamx2dM_spec (l : List ℚ) (hne : l ≠ []) (hpos : ∀ b ∈ l, 0 < b) :
    (∀ b ∈ l, b ≤ gamx2dM l) ∧ gamx2dM l ∈ l := by
  obtain ⟨a, t, rfl⟩ := List.exists_cons_of_ne_nil hne
  have ha : 0 < a := hpos a (List.mem_cons_self a t)
  have hgam : gamx2dM (a :: t) =
      (a :: t).foldl (fun acc g => max acc ((fun v => v) g)) a := by
    rw [gamx2dM]
    exact absmax_foldl_eq (a :: t) a ha hpos
  constructor
  · intro b hb
    rw [hgam]
    exact foldl_max_le_of_mem (fun v => v) (a :: t) a b hb
  · rw [hgam]
    rcases foldl_max_eq_init_or_mem (fun v => v) (a :: t) a with h | ⟨g, hg, h⟩
    · rw [h]; exact List.mem_cons_self a t
    · rw [h]; exact hg

lemma gamn2dM_spec (l : List ℚ) (hne : l ≠ []) (hpos : ∀ b ∈ l, 0 < b) :
    (∀ b ∈ l, gamn2dM l ≤ b) ∧ gamn2dM l ∈ l := by
  obtain ⟨a, t, rfl⟩ := List.exists_cons_of_ne_nil hne
  have ha : 0 < a := hpos a (List.mem_cons_self a t)
  have hgam : gamn2dM (a :: t) =
      (a :: t).foldl (fun acc g => min acc ((fun v => v) g)) a := by
    rw [gamn2dM]
    exact absmin_foldl_eq (a :: t) a ha hpos
  constructor
  · intro b hb
    rw [hgam]
    exact foldl_min_le_of_mem (fun v => v) (a :: t) a b hb
  · rw [hgam]
    rcases foldl_min_eq_init_or_mem (fun v => v) (a :: t) a with h | ⟨g, hg, h⟩
    · rw [h]; exact List.mem_cons_self a t
    · rw [h]; exact hg

/-- C5 counterexample to the claim as stated: a 1 x 2 active grid holding
a 1 x 2 matrix with the default 32 x 32 blocks. Process (0,1) owns no
columns (lcols = 0), never assigns r_max, and feeds its caller-provided
value 999 into the absolute-max reduction; the only diagonal entry has
magnitude 5, yet the returned r_max is 999. -/
theorem C5_orthogonalize_counterexample :
    OP.rmaxOut ⟨1, 2, 32, 32, 1, 2, fun _ => 5, fun _ _ => 0, 1, 1000000,
      fun _ _ => 999, fun _ _ => 1⟩ = 999 ∧
    OP.minmn ⟨1, 2, 32, 32, 1, 2, fun _ => 5, fun _ _ => 0, 1, 1000000,
      fun _ _ => 999, fun _ _ => 1⟩ = 1 ∧
    (⟨1, 2, 32, 32, 1, 2, fun _ => 5, fun _ _ => 0, 1, 1000000,
      fun _ _ => 999, fun _ _ => 1⟩ : OP).R 0 = 5 ∧
    OP.rmaxOut ⟨1, 2, 32, 32, 1, 2, fun _ => 5, fun _ _ => 0, 1, 1000000,
      fun _ _ => 999, fun _ _ => 1⟩ ≠
      |(⟨1, 2, 32, 32, 1, 2, fun _ => 5, fun _ _ => 0, 1, 1000000,
        fun _ _ => 999, fun _ _ => 1⟩ : OP).R 0| := by
  refine ⟨by decide, by decide, by decide, by decide⟩

/-- C5 amended: on an active matrix where every grid process has a
nonempty local block and every diagonal magnitude of the triangular
factor lies between the numeric_limits min/max sentinels, the returned
r_max and r_min are exactly the grid-wide maximum and minimum diagonal
magnitudes (each bound is attained); and when cols > rows the trailing
cols - rows columns are zero after the call. -/
theorem C5_orthogonalize_amended (x : OP)
    (h1 : 0 < x.nprows) (h2 : 0 < x.npcols) (hm : 0 < x.minmn)
    (hlr : ∀ pr, pr < x.nprows → numroc x.rows x.MB pr 0 x.nprows ≠ 0)
    (hlc : ∀ pc, pc < x.npcols → numroc x.cols x.NB pc 0 x.npcols ≠ 0)
    (hlo : ∀ gi, gi < x.minmn → x.NMIN ≤ |x.R gi|)
    (hhi : ∀ gi, gi < x.minmn → |x.R gi| ≤ x.NMAX)
    (hpos : 0 < x.NMIN) (hposM : 0 < x.NMAX) :
    (∀ gi, gi < x.minmn → |x.R gi| ≤ x.rmaxOut) ∧
    (∃ gi, gi < x.minmn ∧ x.rmaxOut = |x.R gi|) ∧
    (∀ gi, gi < x.minmn → x.rminOut ≤ |x.R gi|) ∧
    (∃ gi, gi < x.minmn ∧ x.rminOut = |x.R gi|) ∧
    (x.rows < x.cols → ∀ i, i < x.rows → ∀ j, x.rows ≤ j → j < x.cols →
      x.orthData i j = 0) := by
  have hmemdiag : ∀ gi, gi < x.minmn →
      gi ∈ x.diagIdx (g2pF x.MB x.nprows gi) (g2pF x.NB x.npcols gi) := by
    intro gi hgi
    refine List.mem_filter.mpr ⟨List.mem_range.mpr hgi, ?_⟩
    exact decide_eq_true ⟨rfl, rfl⟩
  have hdiag_lt : ∀ pr pc gi, gi ∈ x.diagIdx pr pc → gi < x.minmn := by
    intro pr pc gi hgi
    exact List.mem_range.mp (List.mem_filter.mp hgi).1
  have h00 : (0, 0) ∈ x.procs :=
    List.pair_mem_product.mpr
      ⟨List.mem_range.mpr h1, List.mem_range.mpr h2⟩
  have hprocne : x.procs.map (fun q => x.contribMax q.1 q.2) ≠ [] :=
    List.ne_nil_of_mem (List.mem_map.mpr ⟨(0, 0), h00, rfl⟩)
  have hprocne2 : x.procs.map (fun q => x.contribMin q.1 q.2) ≠ [] :=
    List.ne_nil_of_mem (List.mem_map.mpr ⟨(0, 0), h00, rfl⟩)
  have hcondT : ∀ pr pc, pr < x.nprows → pc < x.npcols →
      (numroc x.rows x.MB pr 0 x.nprows ≠ 0 ∧
       numroc x.cols x.NB pc 0 x.npcols ≠ 0) :=
    fun pr pc hpr hpc => ⟨hlr pr hpr, hlc pc hpc⟩
  have hcmax : ∀ pr pc, pr < x.nprows → pc < x.npcols →
      x.contribMax pr pc = x.localRmax pr pc := by
    intro pr pc hpr hpc
    rw [OP.contribMax, if_pos (hcondT pr pc hpr hpc)]
  have hcmin : ∀ pr pc, pr < x.nprows → pc < x.npcols →
      x.contribMin pr pc = x.localRmin pr pc := by
    intro pr pc hpr hpc
    rw [OP.contribMin, if_pos (hcondT pr pc hpr hpc)]
  have hmaxpos : ∀ b ∈ x.procs.map (fun q => x.contribMax q.1 q.2), 0 < b := by
    intro b hb
    obtain ⟨⟨pr, pc⟩, hqm, rfl⟩ := List.mem_map.mp hb
    obtain ⟨hpr, hpc⟩ := List.pair_mem_product.mp hqm
    rw [hcmax pr pc (List.mem_range.mp hpr) (List.mem_range.mp hpc)]
    exact lt_of_lt_of_le hpos (foldl_max_le_init _ _ _)
  have hminpos : ∀ b ∈ x.procs.map (fun q => x.contribMin q.1 q.2), 0 < b := by
    intro b hb
    obtain ⟨⟨pr, pc⟩, hqm, rfl⟩ := List.mem_map.mp hb
    obtain ⟨hpr, hpc⟩ := List.pair_mem_product.mp hqm
    rw [hcmin pr pc (List.mem_range.mp hpr) (List.mem_range.mp hpc)]
    rcases foldl_min_eq_init_or_mem (fun gi => |x.R gi|) (x.diagIdx pr pc)
      x.NMAX with h | ⟨g, hg, h⟩
    · rw [OP.localRmin, h]; exact hposM
    · rw [OP.localRmin, h]
      exact lt_of_lt_of_le hpos (hlo g (hdiag_lt pr pc g hg))
  obtain ⟨hgamub, hgammem⟩ :=
    gamx2dM_spec (x.procs.map (fun q => x.contribMax q.1 q.2)) hprocne hmaxpos
  obtain ⟨hgnlb, hgnmem⟩ :=
    gamn2dM_spec (x.procs.map (fun q => x.contribMin q.1 q.2)) hprocne2 hminpos
  have hub : ∀ gi, gi < x.minmn → |x.R gi| ≤ x.rmaxOut := by
    intro gi hgi
    have hpr := g2pF_lt x.MB x.nprows gi h1
    have hpc := g2pF_lt x.NB x.npcols gi h2
    have h5 : |x.R gi| ≤ x.localRmax (g2pF x.MB x.nprows gi)
        (g2pF x.NB x.npcols gi) :=
      foldl_max_le_of_mem _ _ _ gi (hmemdiag gi hgi)
    have h6 : x.contribMax (g2pF x.MB x.nprows gi) (g2pF x.NB x.npcols gi) ∈
        x.procs.map (fun q => x.contribMax q.1 q.2) := by
      refine List.mem_map.mpr ⟨(g2pF x.MB x.nprows gi, g2pF x.NB x.npcols gi),
        ?_, rfl⟩
      exact List.pair_mem_product.mpr
        ⟨List.mem_range.mpr hpr, List.mem_range.mpr hpc⟩
    have h7 := hgamub _ h6
    rw [hcmax _ _ hpr hpc] at h7
    exact le_trans h5 h7
  have hlb : ∀ gi, gi < x.minmn → x.rminOut ≤ |x.R gi| := by
    intro gi hgi
    have hpr := g2pF_lt x.MB x.nprows gi h1
    have hpc := g2pF_lt x.NB x.npcols gi h2
    have h5 : x.localRmin (g2pF x.MB x.nprows gi) (g2pF x.NB x.npcols gi) ≤
        |x.R gi| :=
      foldl_min_le_of_mem _ _ _ gi (hmemdiag gi hgi)
    have h6 : x.contribMin (g2pF x.MB x.nprows gi) (g2pF x.NB x.npcols gi) ∈
        x.procs.map (fun q => x.contribMin q.1 q.2) := by
      refine List.mem_map.mpr ⟨(g2pF x.MB x.nprows gi, g2pF x.NB x.npcols gi),
        ?_, rfl⟩
      exact List.pair_mem_product.mpr
        ⟨List.mem_range.mpr hpr, List.mem_range.mpr hpc⟩
    have h7 := hgnlb _ h6
    rw [hcmin _ _ hpr hpc] at h7
    exact le_trans h7 h5
  refine ⟨hub, ?_, hlb, ?_, ?_⟩
  · obtain ⟨⟨pr, pc⟩, hqm, hq⟩ := List.mem_map.mp hgammem
    obtain ⟨hpr, hpc⟩ := List.pair_mem_product.mp hqm
    rw [hcmax pr pc (List.mem_range.mp hpr) (List.mem_range.mp hpc)] at hq
    rcases foldl_max_eq_init_or_mem (fun gi => |x.R gi|) (x.diagIdx pr pc)
      x.NMIN with h | ⟨g, hg, h⟩
    · refine ⟨0, hm, ?_⟩
      have h8 : x.rmaxOut = x.NMIN := by
        rw [OP.rmaxOut, ← hq, OP.localRmax, h]
      have h9 := hub 0 hm
      have h10 := hlo 0 hm
      have h11 : x.rmaxOut ≤ |x.R 0| := by rw [h8]; exact h10
      exact le_antisymm h11 h9
    · exact ⟨g, hdiag_lt pr pc g hg, by
        rw [OP.rmaxOut, ← hq, OP.localRmax, h]⟩
  · obtain ⟨⟨pr, pc⟩, hqm, hq⟩ := List.mem_map.mp hgnmem
    obtain ⟨hpr, hpc⟩ := List.pair_mem_product.mp hqm
    rw [hcmin pr pc (List.mem_range.mp hpr) (List.mem_range.mp hpc)] at hq
    rcases foldl_min_eq_init_or_mem (fun gi => |x.R gi|) (x.diagIdx pr pc)
      x.NMAX with h | ⟨g, hg, h⟩
    · refine ⟨0, hm, ?_⟩
      have h8 : x.rminOut = x.NMAX := by
        rw [OP.rminOut, ← hq, OP.localRmin, h]
      have h9 := hlb 0 hm
      have h11 : |x.R 0| ≤ x.rminOut := by rw [h8]; exact hhi 0 hm
      exact le_antisymm h9 h11
    · exact ⟨g, hdiag_lt pr pc g hg, by
        rw [OP.rminOut, ← hq, OP.localRmin, h]⟩
  · intro hrc i hi j hj1 hj2
    rw [OP.orthData, if_pos ⟨hrc, hj1, hj2, hi⟩]

/-- Concrete instance for the C5 witness: a 1 x 1 grid holding a 1 x 1
matrix whose single diagonal entry has magnitude 5. -/
def C5wx : OP :=
  ⟨1, 1, 32, 32, 1, 1, fun _ => 5, fun _ _ => 0, 1, 1000000,
   fun _ _ => 0, fun _ _ => 0⟩

/-- Witness for C5's amended theorem on C5wx. -/
theorem C5_orthogonalize_amended_witness :
    (∀ gi, gi < C5wx.minmn → |C5wx.R gi| ≤ C5wx.rmaxOut) ∧
    (∃ gi, gi < C5wx.minmn ∧ C5wx.rmaxOut = |C5wx.R gi|) ∧
    (∀ gi, gi < C5wx.minmn → C5wx.rminOut ≤ |C5wx.R gi|) ∧
    (∃ gi, gi < C5wx.minmn ∧ C5wx.rminOut = |C5wx.R gi|) ∧
    (C5wx.rows < C5wx.cols → ∀ i, i < C5wx.rows → ∀ j, C5wx.rows ≤ j →
      j < C5wx.cols → C5wx.orthData i j = 0) :=
  C5_orthogonalize_amended C5wx (by decide) (by decide) (by decide)
    (by decide) (by decide) (by decide) (by decide) (by decide) (by decide)

/-! ## extract_rows / extract_cols (DistributedMatrix.hpp lines 871-1010)
    The exchange moves whole rows (resp. columns) within one process
    column (resp. row), so it is modelled once, generically in the
    extracted dimension, for one process column: P processes in the
    extracted dimension, source block size B there, and the freshly
    constructed output uses block size dB in that dimension
    (default_MB/default_NB in the source, since tmp is built with
    DistributedMatrix(grid(), Ir.size(), cols())). The payload dimension
    (columns for extract_rows, rows for extract_cols) is never
    communicated across process columns but it IS relaid: the loops copy
    source-local payload slot c straight to output-local payload slot c
    for c < lcols_, while the source lays its payload out with block
    size NBs and the output with the default dNB, both over npcols
    process columns with this worker at payload coordinate pc. The
    source content is A : global extracted index -> global payload
    index -> value; process q's local buffer at (lr, c) is
    A (l2gF B P q lr) (l2gF NBs npcols pc c). Messages are delivered
    intact (MPI contract); the receive loop walks each incoming buffer
    with a per-owner cursor, exactly as the source walks prbuf[owner].
    The output buffer starts as uninitialized memory
    (new scalar_t[...]), supplied as a parameter. -/

structure XP where
  P : ℕ
  B : ℕ
  dB : ℕ
  npcols : ℕ
  pc : ℕ
  NBs : ℕ
  dNB : ℕ
  cols : ℕ
  A : ℕ → ℕ → ℚ
  Ir : List ℕ
  uninit : ℕ → ℕ → ℕ → ℚ

def XP.len (x : XP) : ℕ := x.Ir.length

/-- lcols_ of the source on this process column: the payload width every
copy loop runs to (numroc of the global payload extent under the
source's payload blocking). -/
def XP.W (x : XP) : ℕ := numroc x.cols x.NBs x.pc 0 x.npcols

/-- Ir[r] (the vector access in the source is always in bounds). -/
def XP.gIdx (x : XP) (r : ℕ) : ℕ := x.Ir.getD r 0

/-- owner = rowg2p(Ir[r]), computed with the source matrix's block size. -/
def XP.owner (x : XP) (r : ℕ) : ℕ := g2pF x.B x.P (x.gIdx r)

/-- dest = rowg2p(r), also computed with the source matrix's block size
(this is the defect the counterexample exploits: the output tmp is laid
out with the default block size dB). -/
def XP.dest (x : XP) (r : ℕ) : ℕ := g2pF x.B x.P r

/-- tmp.rowg2l(r): local slot of output index r in tmp's layout. -/
def XP.tmpg2l (x : XP) (r : ℕ) : ℕ := g2lF x.dB x.P r

/-- coll2g of the source: local payload slot c on process column pc is
this global payload index under the source's blocking. -/
def XP.coll2g (x : XP) (c : ℕ) : ℕ := l2gF x.NBs x.npcols x.pc c

/-- Process q's local buffer: operator()(lr, c), reading the source's
payload layout. -/
def XP.localA (x : XP) (q lr c : ℕ) : ℚ :=
  x.A (l2gF x.B x.P q lr) (x.coll2g c)

/-- The rows bucketed by sender q for destination p (pushed in
increasing r order, dest different from the sender itself). -/
def XP.popPred (x : XP) (q p : ℕ) : ℕ → Bool :=
  fun r => decide (x.owner r = q ∧ x.dest r = p ∧ p ≠ q)

/-- sbuf[p] on process q: the W payload values of each bucketed row,
flattened in push order. -/
def XP.sbuf (x : XP) (q p : ℕ) : List ℚ :=
  ((List.range x.len).filter (x.popPred q p)).flatMap
    (fun r => (List.range x.W).map
      (fun c => x.localA q (g2lF x.B x.P (x.gIdx r)) c))

/-- Store one row of W payload entries at local slot lr. -/
def writeRow (buf : ℕ → ℕ → ℚ) (lr W : ℕ) (row : ℕ → ℚ) : ℕ → ℕ → ℚ :=
  fun r c => if r = lr ∧ c < W then row c else buf r c

/-- First pass on process p (inside the sizing loop of the source):
rows owned by p and destined to p are copied straight into tmp. -/
def XP.directStep (x : XP) (p : ℕ) (buf : ℕ → ℕ → ℚ) (r : ℕ) : ℕ → ℕ → ℚ :=
  if x.owner r = p ∧ x.dest r = p then
    writeRow buf (x.tmpg2l r) x.W
      (fun c => x.localA p (g2lF x.B x.P (x.gIdx r)) c)
  else buf

def XP.directPhase (x : XP) (p : ℕ) (buf : ℕ → ℕ → ℚ) : ℕ → ℕ → ℚ :=
  (List.range x.len).foldl (x.directStep p) buf

/-- Receive pass on process p: walk r in order; skip rows p owns and
rows not destined to p; otherwise consume W values from the owner's
incoming buffer at that owner's cursor and advance the cursor. -/
def XP.recvStep (x : XP) (p : ℕ) (st : (ℕ → ℕ) × (ℕ → ℕ → ℚ)) (r : ℕ) :
    (ℕ → ℕ) × (ℕ → ℕ → ℚ) :=
  if x.owner r = p then st
  else if x.dest r = p then
    (fun u => if u = x.owner r then st.1 u + x.W else st.1 u,
     writeRow st.2 (x.tmpg2l r) x.W
       (fun c => (x.sbuf (x.owner r) p).getD (st.1 (x.owner r) + c) 0))
  else st

def XP.recvPhase (x : XP) (p : ℕ) (buf : ℕ → ℕ → ℚ) : ℕ → ℕ → ℚ :=
  ((List.range x.len).foldl (x.recvStep p) (fun _ => 0, buf)).2

/-- The output's local buffer on process p after extract_rows. -/
def XP.tmpBuf (x : XP) (p : ℕ) : ℕ → ℕ → ℚ :=
  x.recvPhase p (x.directPhase p (x.uninit p))

/-- Global entry (i, j) of the output, read through the layout of the
freshly constructed tmp in BOTH dimensions: extracted-dimension process
g2pF dB P i at local slot g2lF dB P i, payload-local slot
g2lF dNB npcols j (meaningful on the process column that owns j under
tmp's default payload blocking, i.e. when g2pF dNB npcols j = pc). -/
def XP.outEntry (x : XP) (i j : ℕ) : ℚ :=
  x.tmpBuf (g2pF x.dB x.P i) (g2lF x.dB x.P i) (g2lF x.dNB x.npcols j)

/-- C2 counterexample to the claim as stated: 2 process rows, source
block size 2 (as in the spec's own 7 x 5, grid 2 x 2, block size 2
example), default output block size 32, one payload column,
Ir = [0, 0, 2], source content A g c = g, fresh memory filled with
1000. Output row 2 should equal source row 2 (value 2); because the
destination owner of output row 2 is computed with block size 2 (process
1) while tmp's layout with block size 32 places row 2 on process 0, the
data is deposited on the wrong process and the entry read back is the
uninitialized 1000. -/
theorem C2_extract_counterexample :
    XP.outEntry ⟨2, 2, 32, 1, 0, 1, 1, 1, fun g _ => (g : ℚ), [0, 0, 2],
      fun _ _ _ => 1000⟩ 2 0 = 1000 ∧
    (⟨2, 2, 32, 1, 0, 1, 1, 1, fun g _ => (g : ℚ), [0, 0, 2],
      fun _ _ _ => 1000⟩ : XP).A
      (XP.gIdx ⟨2, 2, 32, 1, 0, 1, 1, 1, fun g _ => (g : ℚ), [0, 0, 2],
        fun _ _ _ => 1000⟩ 2) 0 = 2 ∧
    (1000 : ℚ) ≠ 2 := by
  refine ⟨by decide, by decide, by decide⟩

lemma range_split (i n : ℕ) (h : i < n) :
    List.range n = List.range i ++ i :: List.range' (i + 1) (n - i - 1) := by
  have h2 : n - i = (n - i - 1) + 1 := by omega
  have h3 : List.range' i (n - i) = i :: List.range' (i + 1) (n - i - 1) := by
    have h7 := List.range'_succ i (n - i - 1) 1
    rw [← h2] at h7
    exact h7
  have h4 := List.range'_append 0 i (n - i) 1
  have h5 : 0 + 1 * i = i := by omega
  have h6 : n - i + i = n := by omega
  rw [h5, h6] at h4
  simp only [List.range_eq_range']
  rw [← h3, ← h4]

/-- The per-owner cursor after processing a prefix: W times the number
of rows of that prefix received from owner q. -/
lemma recv_cursor (x : XP) (p : ℕ) :
    ∀ (l : List ℕ) (st : (ℕ → ℕ) × (ℕ → ℕ → ℚ)) (q : ℕ),
      ((l.foldl (x.recvStep p) st).1) q =
        st.1 q + x.W * l.countP (x.popPred q p) := by
  intro l
  induction l with
  | nil => intro st q; simp
  | cons r t ih =>
    intro st q
    rw [List.foldl_cons, List.countP_cons, ih (x.recvStep p st r) q]
    by_cases h1 : x.owner r = p
    · have hpred : x.popPred q p r = false := by
        rw [XP.popPred, decide_eq_false_iff_not]
        rintro ⟨hq, _, hne⟩
        exact hne (by rw [← hq, h1])
      rw [XP.recvStep, if_pos h1, hpred]
      simp
    · by_cases h2 : x.dest r = p
      · by_cases h3 : q = x.owner r
        · have hpred : x.popPred q p r = true := by
            rw [XP.popPred, decide_eq_true_eq]
            exact ⟨h3.symm, h2, fun hpq => h1 (by rw [← h3, ← hpq])⟩
          rw [XP.recvStep, if_neg h1, if_pos h2, hpred]
          dsimp only
          rw [if_pos h3]
          simp
          ring
        · have hpred : x.popPred q p r = false := by
            rw [XP.popPred, decide_eq_false_iff_not]
            rintro ⟨hq, _, _⟩
            exact h3 hq.symm
          rw [XP.recvStep, if_neg h1, if_pos h2, hpred]
          dsimp only
          rw [if_neg h3]
          simp
      · have hpred : x.popPred q p r = false := by
          rw [XP.popPred, decide_eq_false_iff_not]
          rintro ⟨_, hd, _⟩
          exact h2 hd
        rw [XP.recvStep, if_neg h1, if_neg h2, hpred]
        simp

/-- The receive pass never touches a local slot that no received row
maps to. -/
lemma recv_preserve (x : XP) (p : ℕ) :
    ∀ (l : List ℕ) (st : (ℕ → ℕ) × (ℕ → ℕ → ℚ)) (lr c : ℕ),
      (∀ r ∈ l, x.owner r ≠ p → x.dest r = p → x.tmpg2l r ≠ lr) →
      ((l.foldl (x.recvStep p) st).2) lr c = st.2 lr c := by
  intro l
  induction l with
  | nil => intro st lr c _; rfl
  | cons r t ih =>
    intro st lr c hl
    rw [List.foldl_cons,
      ih _ lr c (fun r' hr' => hl r' (List.mem_cons_of_mem _ hr'))]
    by_cases h1 : x.owner r = p
    · rw [XP.recvStep, if_pos h1]
    · by_cases h2 : x.dest r = p
      · rw [XP.recvStep, if_neg h1, if_pos h2]
        dsimp only
        simp only [writeRow]
        rw [if_neg]
        rintro ⟨he, _⟩
        exact hl r (List.mem_cons_self r t) h1 h2 he.symm
      · rw [XP.recvStep, if_neg h1, if_neg h2]

/-- The direct-copy pass never touches a local slot that no direct row
maps to. -/
lemma direct_preserve (x : XP) (p : ℕ) :
    ∀ (l : List ℕ) (buf : ℕ → ℕ → ℚ) (lr c : ℕ),
      (∀ r ∈ l, x.owner r = p → x.dest r = p → x.tmpg2l r ≠ lr) →
      (l.foldl (x.directStep p) buf) lr c = buf lr c := by
  intro l
  induction l with
  | nil => intro buf lr c _; rfl
  | cons r t ih =>
    intro buf lr c hl
    rw [List.foldl_cons,
      ih _ lr c (fun r' hr' => hl r' (List.mem_cons_of_mem _ hr'))]
    by_cases h1 : x.owner r = p ∧ x.dest r = p
    · rw [XP.directStep, if_pos h1]
      simp only [writeRow]
      rw [if_neg]
      rintro ⟨he, _⟩
      exact hl r (List.mem_cons_self r t) h1.1 h1.2 he.symm
    · rw [XP.directStep, if_neg h1]

/-- Reading the flattened constant-width rows: position k * W + c holds
payload entry c of the k-th row. -/
lemma flat_rows_getD (W : ℕ) (g : ℕ → ℕ → ℚ) :
    ∀ (l : List ℕ) (k c : ℕ), k < l.length → c < W →
      (l.flatMap (fun r => (List.range W).map (fun c => g r c))).getD
        (k * W + c) 0 = g (l.getD k 0) c := by
  intro l
  induction l with
  | nil => intro k c hk _; simp at hk
  | cons r t ih =>
    intro k c hk hc
    rw [List.flatMap_cons]
    cases k with
    | zero =>
      have hidx : 0 * W + c < ((List.range W).map (fun c => g r c)).length := by
        simpa using hc
      rw [List.getD_append _ _ _ _ hidx]
      simp only [Nat.zero_mul, Nat.zero_add]
      rw [List.getD_eq_getElem?_getD, List.getElem?_map, List.getElem?_range hc]
      rfl
    | succ k =>
      have hlen : ((List.range W).map (fun c => g r c)).length = W := by simp
      have hmul : (k + 1) * W = k * W + W := by ring
      have hge : ((List.range W).map (fun c => g r c)).length ≤
          (k + 1) * W + c := by omega
      rw [List.getD_append_right _ _ _ _ hge]
      have harith : (k + 1) * W + c -
          ((List.range W).map (fun c => g r c)).length = k * W + c := by omega
      rw [harith]
      have hk2 : k < t.length := by simpa using hk
      rw [ih k c hk2 hc]
      rfl

/-- The index matched by the k-th bucketed row, when k counts the
matching rows of the prefix before a matching index i, is i itself. -/
lemma filter_range_getD (pr : ℕ → Bool) (n i : ℕ) (h : i < n)
    (hp : pr i = true) :
    ((List.range n).filter pr).getD (((List.range i).filter pr).length) 0 =
      i := by
  rw [range_split i n h, List.filter_append, List.filter_cons_of_pos hp]
  rw [List.getD_append_right _ _ _ _ (le_refl _)]
  simp

lemma filter_range_length_lt (pr : ℕ → Bool) (n i : ℕ) (h : i < n)
    (hp : pr i = true) :
    ((List.range i).filter pr).length <
      ((List.range n).filter pr).length := by
  rw [range_split i n h, List.filter_append, List.filter_cons_of_pos hp]
  rw [List.length_append, List.length_cons]
  omega

/-- Reading the message from q to p at the cursor of the k-th received
row gives that row's payload. -/
lemma sbuf_getD (x : XP) (q p k c : ℕ)
    (hk : k < ((List.range x.len).filter (x.popPred q p)).length)
    (hc : c < x.W) :
    (x.sbuf q p).getD (k * x.W + c) 0 =
      x.localA q (g2lF x.B x.P
        (x.gIdx (((List.range x.len).filter (x.popPred q p)).getD k 0))) c :=
  flat_rows_getD x.W
    (fun r c => x.localA q (g2lF x.B x.P (x.gIdx r)) c)
    ((List.range x.len).filter (x.popPred q p)) k c hk hc

/-- Slot-level correctness of the exchange: when the extracted-dimension
block sizes agree, the output's local buffer on the destination process,
at output local slot tmpg2l i and any payload slot c within the copy
loops' bound lcols_, holds the source entry of global extracted index
Ir[i] at the source-local payload slot c. -/
lemma extract_slot_correct (x : XP)
    (hdB : x.dB = x.B) (hB : 0 < x.B) (hP : 0 < x.P)
    (i c : ℕ) (hi : i < x.len) (hc : c < x.W) :
    x.tmpBuf (x.dest i) (x.tmpg2l i) c = x.A (x.gIdx i) (x.coll2g c) := by
  have hdp : ∀ r, g2pF x.dB x.P r = x.dest r := by
    intro r
    rw [hdB]
    rfl
  have hinj : ∀ r r', x.dest r = x.dest i → x.dest r' = x.dest i →
      x.tmpg2l r = x.tmpg2l r' → r = r' := by
    intro r r' h1 h2 h3
    refine g2lF_inj x.dB x.P r r' (by rw [hdB]; exact hB) hP ?_ h3
    rw [hdp, hdp, h1, h2]
  rw [XP.tmpBuf, XP.recvPhase]
  have hsplit := range_split i x.len hi
  by_cases hq : x.owner i = x.dest i
  · have hrecv : ((List.range x.len).foldl (x.recvStep (x.dest i))
        (fun _ => 0, x.directPhase (x.dest i) (x.uninit (x.dest i)))).2
          (x.tmpg2l i) c =
        x.directPhase (x.dest i) (x.uninit (x.dest i)) (x.tmpg2l i) c := by
      apply recv_preserve
      intro r _ hro hrd heq
      exact hro (by rw [hinj r i hrd rfl heq]; exact hq)
    rw [hrecv, XP.directPhase, hsplit, List.foldl_append, List.foldl_cons]
    have hsuf : ((List.range' (i + 1) (x.len - i - 1)).foldl
        (x.directStep (x.dest i))
        (x.directStep (x.dest i)
          ((List.range i).foldl (x.directStep (x.dest i))
            (x.uninit (x.dest i))) i)) (x.tmpg2l i) c =
        x.directStep (x.dest i)
          ((List.range i).foldl (x.directStep (x.dest i))
            (x.uninit (x.dest i))) i (x.tmpg2l i) c := by
      apply direct_preserve
      intro r hr _ hrd heq
      have hri : r = i := hinj r i hrd rfl heq
      rw [List.mem_range'] at hr
      obtain ⟨j, _, hre⟩ := hr
      omega
    rw [hsuf, XP.directStep, if_pos ⟨hq, rfl⟩]
    simp only [writeRow]
    rw [if_pos (show True ∧ c < x.W from ⟨trivial, hc⟩),
      XP.localA, l2gF_g2lF x.B x.P (x.dest i) (x.gIdx i) hB hP hq]
  · rw [hsplit, List.foldl_append, List.foldl_cons]
    have hcur := recv_cursor x (x.dest i) (List.range i)
      (fun _ => 0, x.directPhase (x.dest i) (x.uninit (x.dest i)))
      (x.owner i)
    have hsuf : ((List.range' (i + 1) (x.len - i - 1)).foldl
        (x.recvStep (x.dest i))
        (x.recvStep (x.dest i)
          ((List.range i).foldl (x.recvStep (x.dest i))
            (fun _ => 0, x.directPhase (x.dest i) (x.uninit (x.dest i)))) i)).2
          (x.tmpg2l i) c =
        (x.recvStep (x.dest i)
          ((List.range i).foldl (x.recvStep (x.dest i))
            (fun _ => 0, x.directPhase (x.dest i) (x.uninit (x.dest i)))) i).2
          (x.tmpg2l i) c := by
      apply recv_preserve
      intro r hr _ hrd heq
      have hri : r = i := hinj r i hrd rfl heq
      rw [List.mem_range'] at hr
      obtain ⟨j, _, hre⟩ := hr
      omega
    rw [hsuf, XP.recvStep, if_neg hq, if_pos rfl]
    dsimp only
    simp only [writeRow]
    rw [if_pos (show True ∧ c < x.W from ⟨trivial, hc⟩), hcur]
    dsimp only
    have hpi : x.popPred (x.owner i) (x.dest i) i = true := by
      rw [XP.popPred, decide_eq_true_eq]
      exact ⟨rfl, rfl, fun hpq => hq hpq.symm⟩
    have hcnt : (List.range i).countP (x.popPred (x.owner i) (x.dest i)) =
        ((List.range i).filter (x.popPred (x.owner i) (x.dest i))).length :=
      List.countP_eq_length_filter _ _
    have hklt : ((List.range i).filter
        (x.popPred (x.owner i) (x.dest i))).length <
        ((List.range x.len).filter
          (x.popPred (x.owner i) (x.dest i))).length :=
      filter_range_length_lt _ x.len i hi hpi
    have hidx : 0 + x.W * (List.range i).countP
        (x.popPred (x.owner i) (x.dest i)) + c =
        ((List.range i).filter
          (x.popPred (x.owner i) (x.dest i))).length * x.W + c := by
      rw [hcnt]
      ring
    rw [hidx, sbuf_getD x (x.owner i) (x.dest i) _ c hklt hc,
      filter_range_getD (x.popPred (x.owner i) (x.dest i)) x.len i hi hpi,
      XP.localA, l2gF_g2lF x.B x.P (x.owner i) (x.gIdx i) hB hP rfl]

/-- C2 amended: when the source matrix's block sizes in BOTH dimensions
equal the default block sizes that the freshly constructed output uses
(x.dB = x.B in the extracted dimension and x.dNB = x.NBs in the payload
dimension, as holds for every matrix built with the default blocking),
every output entry equals the requested source entry: global row i of
extract_rows (resp. column i of extract_cols) is global row Ir[i]
(resp. column) of A at every global payload index j, for arbitrary index
lists with duplicates and in arbitrary order. The entry is read through
the output's own layout in both dimensions, on the process column owning
j under that layout. -/
theorem C2_extract_default_blocksize (x : XP)
    (hdB : x.dB = x.B) (hdNB : x.dNB = x.NBs)
    (hB : 0 < x.B) (hP : 0 < x.P) (hNB : 0 < x.NBs) (hnpc : 0 < x.npcols)
    (i j : ℕ) (hi : i < x.len) (hj : j < x.cols)
    (hpc : g2pF x.dNB x.npcols j = x.pc) :
    x.outEntry i j = x.A (x.gIdx i) j := by
  have hpc2 : g2pF x.NBs x.npcols j = x.pc := by
    rw [← hdNB]
    exact hpc
  have hc : g2lF x.dNB x.npcols j < x.W := by
    rw [XP.W, hdNB, ← hpc2]
    exact g2lF_lt_numroc x.NBs x.npcols x.cols j hNB hnpc hj
  have hcol : x.coll2g (g2lF x.dNB x.npcols j) = j := by
    rw [XP.coll2g, hdNB, ← hpc2]
    exact l2gF_g2lF x.NBs x.npcols _ j hNB hnpc rfl
  have hdp : g2pF x.dB x.P i = x.dest i := by
    rw [hdB]
    rfl
  have hout : x.outEntry i j =
      x.tmpBuf (x.dest i) (x.tmpg2l i) (g2lF x.dNB x.npcols j) := by
    rw [XP.outEntry, hdp]
    rfl
  rw [hout, extract_slot_correct x hdB hB hP i _ hi hc, hcol]

/-- Witness for C2's amended theorem: same scenario as the
counterexample but with matching block sizes in both dimensions
(B = dB = 2, NBs = dNB = 1); output row 2 now equals source row 2. -/
theorem C2_extract_default_blocksize_witness :
    XP.outEntry ⟨2, 2, 2, 1, 0, 1, 1, 1, fun g _ => (g : ℚ), [0, 0, 2],
      fun _ _ _ => 1000⟩ 2 0 =
    (⟨2, 2, 2, 1, 0, 1, 1, 1, fun g _ => (g : ℚ), [0, 0, 2],
      fun _ _ _ => 1000⟩ : XP).A
      (XP.gIdx ⟨2, 2, 2, 1, 0, 1, 1, 1, fun g _ => (g : ℚ), [0, 0, 2],
        fun _ _ _ => 1000⟩ 2) 0 :=
  C2_extract_default_blocksize
    ⟨2, 2, 2, 1, 0, 1, 1, 1, fun g _ => (g : ℚ), [0, 0, 2], fun _ _ _ => 1000⟩
    rfl rfl (by decide) (by decide) (by decide) (by decide) 2 0
    (by decide) (by decide) (by decide)

end Strumpack
